import Mathlib

/-!
Verification of the `disfunc` disassembly annotator (cmd/disfunc/main.go).

Go strings are modelled as `List Char` (the inputs of interest are ASCII, and
UTF-8 byte order coincides with codepoint order).  Go's partial operations
(slice expressions that can panic, map lookups with a zero-value default) are
modelled explicitly: a Go panic becomes an `Err.panicErr` / `Option.none`
result, and a Go map is an association list with last-write-wins insertion.
-/

set_option autoImplicit false

namespace Disfunc

/-- Go strings, modelled as lists of characters. -/
abbrev Str := List Char

/-- `strings.IndexByte`: index of the first occurrence of `c`, `none` when
absent (Go returns -1; every use of -1 in the source flows into a slice
expression that panics, which we model as an explicit panic case). -/
def findCharIdx (c : Char) : Str → Option Nat
  | [] => none
  | x :: xs => if x = c then some 0 else (findCharIdx c xs).map (· + 1)

/-- `strings.HasPrefix s p` (arguments: pattern first, then the string). -/
def hasPre : Str → Str → Bool
  | [], _ => true
  | _ :: _, [] => false
  | p :: ps, c :: cs => p == c && hasPre ps cs

/-- The characters trimmed by `strings.TrimSpace` (`unicode.IsSpace`). -/
def isGoSpace (c : Char) : Bool :=
  c == ' ' || c == '\t' || c == '\n' || c.toNat == 11 || c.toNat == 12 ||
  c == '\r' || c.toNat == 0x85 || c.toNat == 0xA0 || c.toNat == 0x1680 ||
  (0x2000 ≤ c.toNat && c.toNat ≤ 0x200A) || c.toNat == 0x2028 ||
  c.toNat == 0x2029 || c.toNat == 0x202F || c.toNat == 0x205F ||
  c.toNat == 0x3000

/-- Trim trailing whitespace. -/
def trimRight (s : Str) : Str := (s.reverse.dropWhile isGoSpace).reverse

/-- `strings.TrimSpace`. -/
def trimSpace (s : Str) : Str := trimRight (s.dropWhile isGoSpace)

/-- `strings.SplitN(s, sep, 2)` for a one-character separator: one or two
fields. -/
def goSplitN2 (s : Str) (sep : Char) : List Str :=
  match findCharIdx sep s with
  | some i => [s.take i, s.drop (i + 1)]
  | none => [s]

/-- Decimal digit? -/
def isDigitChar (c : Char) : Bool := 48 ≤ c.toNat && c.toNat ≤ 57

/-- Accumulate decimal digits (`n = n*10 + d`). -/
def digitsVal : Str → Nat → Nat
  | [], acc => acc
  | c :: cs, acc => digitsVal cs (acc * 10 + (c.toNat - 48))

/-- `strconv.Atoi`: optional sign, then at least one decimal digit, with the
64-bit `int` range check (`bitSize = 0`).  Any error (syntax or range) is
`none`, matching the source's `err != nil` tests. -/
def goAtoi (s : Str) : Option Int :=
  match s with
  | [] => none
  | c :: rest =>
    let neg := c = '-'
    let digits := if c = '-' ∨ c = '+' then rest else s
    if digits = [] ∨ ¬ digits.all isDigitChar then none
    else
      let u : Nat := digitsVal digits 0
      if neg then (if u ≤ 2 ^ 63 then some (-(u : Int)) else none)
      else (if u < 2 ^ 63 then some (u : Int) else none)

/-- `lower(c) = c | 0x20` from strconv. -/
def lowerChar (c : Char) : Nat := c.toNat ||| 0x20

/-- One digit of `strconv.ParseUint`'s loop: `'0'..'9'`, or a letter whose
lowercase form is `'a'..'z'` (value 10..35); anything else is a syntax
error. -/
def goDigitVal (c : Char) : Option Nat :=
  if 48 ≤ c.toNat ∧ c.toNat ≤ 57 then some (c.toNat - 48)
  else if 97 ≤ lowerChar c ∧ lowerChar c ≤ 122 then some (lowerChar c - 87)
  else none

/-- The digit loop of `strconv.ParseUint` with `base0 = true`: underscores are
skipped (recorded), other characters must be digits below the base.  Returns
the (unbounded) accumulated value and whether underscores were seen.  Go clamps
on 64-bit overflow and returns `ErrRange`; the caller below rejects any value
outside the signed 64-bit range, which is equivalent for `err != nil`. -/
def parseUintLoop (base : Nat) : Str → Nat → Bool → Option (Nat × Bool)
  | [], acc, us => some (acc, us)
  | c :: cs, acc, us =>
    if c = '_' then parseUintLoop base cs acc true
    else match goDigitVal c with
      | some d => if d < base then parseUintLoop base cs (acc * base + d) us else none
      | none => none

/-- `saw` states of strconv's `underscoreOK`: `'^'` beginning, `'0'` digit,
`'_'` underscore, `'!'` other. -/
def underscoreOKLoop (hex : Bool) : Str → Char → Bool
  | [], saw => saw ≠ '_'
  | c :: cs, saw =>
    if (48 ≤ c.toNat ∧ c.toNat ≤ 57) ∨ (hex ∧ 97 ≤ lowerChar c ∧ lowerChar c ≤ 102) then
      underscoreOKLoop hex cs '0'
    else if c = '_' then (if saw ≠ '0' then false else underscoreOKLoop hex cs '_')
    else if saw = '_' then false
    else underscoreOKLoop hex cs '!'

/-- strconv's `underscoreOK`: underscores may only separate digits (or follow
a base prefix). -/
def underscoreOK (s : Str) : Bool :=
  let s1 := match s with
    | c :: cs => if c = '-' ∨ c = '+' then cs else s
    | [] => s
  match s1 with
  | c0 :: c1 :: rest =>
    if c0 = '0' ∧ (lowerChar c1 = 98 ∨ lowerChar c1 = 111 ∨ lowerChar c1 = 120) then
      underscoreOKLoop (lowerChar c1 = 120) rest '0'
    else underscoreOKLoop false s1 '^'
  | _ => underscoreOKLoop false s1 '^'

/-- `strconv.ParseUint(s, 0, 64)` on the unsigned part: base detection from the
prefix (`0b`/`0o`/`0x`, then bare leading `0` meaning octal), digit loop, and
the underscore well-formedness check.  Result is the unbounded value. -/
def goParseUintBase0 (s : Str) : Option Nat :=
  match s with
  | [] => none
  | c0 :: rest =>
    let (base, s') : Nat × Str :=
      if c0 = '0' then
        match rest with
        | c1 :: _ :: _ =>
          if lowerChar c1 = 98 then (2, rest.drop 1)
          else if lowerChar c1 = 111 then (8, rest.drop 1)
          else if lowerChar c1 = 120 then (16, rest.drop 1)
          else (8, rest)
        | _ :: [] => (8, rest)
        | [] => (10, s)
      else (10, s)
    match parseUintLoop base s' 0 false with
    | none => none
    | some (u, us) => if us ∧ ¬ underscoreOK s then none else some u

/-- `strconv.ParseInt(s, 0, 0)` as used at lines 93 and 125: optional sign,
unsigned parse with automatic base, 64-bit range check.  `none` for any
error. -/
def goParseInt (s : Str) : Option Int :=
  match s with
  | [] => none
  | c :: rest =>
    let neg := c = '-'
    let s1 := if c = '-' ∨ c = '+' then rest else s
    match goParseUintBase0 s1 with
    | none => none
    | some u =>
      if neg then (if u ≤ 2 ^ 63 then some (-(u : Int)) else none)
      else (if u < 2 ^ 63 then some (u : Int) else none)

/-- One parsed instruction (`disamLine`, main.go lines 25-34).  `alias` is
empty until the resolver writes it. -/
structure disamLine where
  file : Str
  srcLine : Int
  binOffset : Int
  asm : Str
  decoded : Str
  instr : Str
  arg : Str
  «alias» : Str
  deriving DecidableEq, Inhabited

/-- One symbol with its instructions (`disasmSym`, main.go lines 36-40). -/
structure disasmSym where
  file : Str
  symbol : Str
  content : List disamLine
  deriving DecidableEq, Inhabited

/-- The address index `m : map[int]string`, as an association list where the
most recent insertion is found first (Go map semantics need only
last-write-wins here). -/
abbrev AddrMap := List (Int × Str)

/-- Go `m[k]` with the zero-value default `""` for a missing key. -/
def mapGet (m : AddrMap) (k : Int) : Str :=
  match m.find? (fun p => p.1 == k) with
  | some p => p.2
  | none => []

/-- Parse errors.  The two `fmt.Errorf("error decoding %q", l)` sites map to
`errorDecoding`; `strconv` failures map to `atoiErr`/`parseIntErr`; a Go
runtime panic (negative slice bound from a -1 `IndexByte` result, or an
inverted slice `l[i+1:j]` with `i+1 > j`) maps to `panicErr`. -/
inductive Err where
  | errorDecoding (l : Str)
  | atoiErr
  | parseIntErr
  | panicErr
  deriving DecidableEq, Inhabited

/-- Parse one instruction line (main.go lines 80-117), given the full line `l`
(which starts with two spaces).  Returns the record plus the address-index
entry `(binOffset, fileSrc)` recorded at line 117.

Faithfulness notes, keyed to the source:
* line 82 `l = l[2:]`: the `HasPrefix(l, "  ")` guard at line 77 makes this
  slice safe;
* lines 83-85: `i := IndexByte(l, ':')`; `f := l[:i]` panics when `i = -1`,
  and `fileSrc := l[:j]` panics when `j = -1` — both are `panicErr` here;
* line 87 `l[i+1:j]` panics when `i+1 > j` (a ':' after the first tab);
* lines 92-93 and 98-99: a missing second or third tab makes `l[:j]` panic. -/
def parseInstr (l : Str) : Except Err (disamLine × Int × Str) :=
  let l2 := l.drop 2
  match findCharIdx ':' l2, findCharIdx '\t' l2 with
  | some i, some j =>
    let f := l2.take i
    let fileSrc := l2.take j
    if i + 1 ≤ j then
      match goAtoi ((l2.drop (i + 1)).take (j - (i + 1))) with
      | none => .error .atoiErr
      | some srcLine =>
        let l3 := trimSpace (l2.drop j)
        match findCharIdx '\t' l3 with
        | none => .error .panicErr
        | some j2 =>
          match goParseInt (l3.take j2) with
          | none => .error .parseIntErr
          | some binOff =>
            let l4 := trimSpace (l3.drop j2)
            match findCharIdx '\t' l4 with
            | none => .error .panicErr
            | some j3 =>
              let asm := l4.take j3
              let decoded := trimSpace (l4.drop j3)
              match findCharIdx ' ' decoded with
              | some js =>
                .ok (⟨f, srcLine, binOff, asm, decoded, decoded.take js,
                      decoded.drop (js + 1), []⟩, binOff, fileSrc)
              | none =>
                .ok (⟨f, srcLine, binOff, asm, decoded, decoded, [], []⟩,
                     binOff, fileSrc)
    else .error .panicErr
  | _, _ => .error .panicErr

/-- The header-line marker `"TEXT "`. -/
def textHeaderPre : Str := ['T', 'E', 'X', 'T', ' ']

/-- Two spaces, the instruction-line indentation checked at line 77. -/
def twoSpaces : Str := [' ', ' ']

/-- Append an instruction to the most recently opened symbol
(`out[len(out)-1].content = append(..., a)`, lines 80 and 116). -/
def appendLast (a : disamLine) : List disasmSym → List disasmSym
  | [] => []
  | [d] => [{ d with content := d.content ++ [a] }]
  | d :: d2 :: ds => d :: appendLast a (d2 :: ds)

/-- One iteration of the parse loop (main.go lines 60-118) on a single line:
skip empty lines, open a symbol on a `TEXT ` header (exactly two
space-separated fields), otherwise require at least two leading spaces and an
open symbol, then parse the instruction and record the address-index entry. -/
def parseStep (st : List disasmSym × AddrMap) (l : Str) :
    Except Err (List disasmSym × AddrMap) :=
  if l = [] then .ok st
  else if hasPre textHeaderPre l then
    match goSplitN2 (l.drop 5) ' ' with
    | [f0, f1] => .ok (st.1 ++ [⟨f1, f0, []⟩], st.2)
    | _ => .error (.errorDecoding l)
  else if ¬ hasPre twoSpaces l ∨ st.1 = [] then .error (.errorDecoding l)
  else
    match parseInstr l with
    | .ok (a, off, fileSrc) => .ok (appendLast a st.1, (off, fileSrc) :: st.2)
    | .error e => .error e

/-- The whole parse pass over the split input (`strings.Split(..., "\n")`
already applied): symbols in order plus the address index. -/
def parseLines (ls : List Str) : Except Err (List disasmSym × AddrMap) :=
  ls.foldlM parseStep ([], [])

/-- `Option`-valued `mapM`, written out so the resolver below matches the
source loop structure and unfolds well in proofs. -/
def mapOpt {α β : Type} (f : α → Option β) : List α → Option (List β)
  | [] => some []
  | a :: as =>
    match f a with
    | none => none
    | some b =>
      match mapOpt f as with
      | none => none
      | some bs => some (b :: bs)

/-- The jump resolver on one instruction (main.go lines 124-131):
`c.instr[0]` panics on an empty mnemonic (`none`); for a `J`-mnemonic the
operand is parsed with `ParseInt(arg, 0, 0)` and, when the address-index entry
is non-empty, written into `alias`. -/
def resolveLine (m : AddrMap) (c : disamLine) : Option disamLine :=
  match c.instr with
  | [] => none
  | ch :: _ =>
    if ch = 'J' then
      match goParseInt c.arg with
      | some b =>
        let dst := mapGet m b
        if dst ≠ [] then some { c with «alias» := dst } else some c
      | none => some c
    else some c

/-- Resolve every instruction of one symbol. -/
def resolveSym (m : AddrMap) (s : disasmSym) : Option disasmSym :=
  match mapOpt (resolveLine m) s.content with
  | none => none
  | some cs => some { s with content := cs }

/-- The resolve pass (main.go lines 122-133) over all symbols. -/
def resolveAll (m : AddrMap) (out : List disasmSym) : Option (List disasmSym) :=
  mapOpt (resolveSym m) out

/-- `filepath.Base` (Unix): `"."` for an empty path, strip trailing slashes,
keep everything after the last slash, `"/"` when only slashes remain. -/
def filepathBase (p : Str) : Str :=
  if p = [] then ['.']
  else
    let q := (p.reverse.dropWhile (· == '/')).reverse
    if q = [] then ['/']
    else (q.reverse.takeWhile (fun c => ¬ (c = '/'))).reverse

/-- Does a symbol survive the file filter (`filepath.Base(out[i].file) == file`,
main.go line 139)? -/
def symMatches (file : Str) (s : disasmSym) : Bool := filepathBase s.file == file

/-- The slice surgery at line 140: `copy(out[i:], out[i+1:])` shifts the tail
left by one but leaves the slice length unchanged, so the last element is
duplicated; nothing truncates the slice afterwards. -/
def goCopyDel {α : Type} (out : List α) (i : Nat) : List α :=
  out.take i ++ out.drop (i + 1) ++ out.drop (out.length - 1)

/-- The filter loop (main.go lines 138-143), fuel-indexed because the loop
does not always terminate: on a non-match the element is "removed" by
`goCopyDel` and `i` is left unchanged (`i--` then `i++`); on a match `i`
advances.  `none` means the fuel ran out — the concrete non-termination
theorems show that for some inputs no fuel suffices. -/
def goFilterLoop {α : Type} (p : α → Bool) : Nat → List α → Nat → Option (List α)
  | 0, _, _ => none
  | fuel + 1, out, i =>
    if h : i < out.length then
      if p (out.get ⟨i, h⟩) then goFilterLoop p fuel out (i + 1)
      else goFilterLoop p fuel (goCopyDel out i) i
    else some out

/-- The file-filter stage (main.go lines 135-144): a no-op for an empty
target, otherwise the loop above starting at index 0. -/
def fileFilter (file : Str) (fuel : Nat) (out : List disasmSym) :
    Option (List disasmSym) :=
  if file = [] then some out else goFilterLoop (symMatches file) fuel out 0

/-- `FilterRuns file S T`: the filter stage, given enough fuel, terminates on
`S` with result `T`. -/
def FilterRuns (file : Str) (S T : List disasmSym) : Prop :=
  ∃ fuel, fileFilter file fuel S = some T

/-- Decimal digits of a natural number, fuel-indexed so it reduces in the
kernel (the fuel `n + 1` always exceeds the number of digits). -/
def natToStrAux : Nat → Nat → Str
  | 0, _ => []
  | fuel + 1, n =>
    if n < 10 then [Char.ofNat (48 + n)]
    else natToStrAux fuel (n / 10) ++ [Char.ofNat (48 + n % 10)]

/-- Decimal digits of a natural number (for `fmt`'s `%d`). -/
def natToStr (n : Nat) : Str := natToStrAux (n + 1) n

/-- `%d` rendering of a Go `int`. -/
def intToStr (i : Int) : Str :=
  if i < 0 then '-' :: natToStr (-i).toNat else natToStr i.toNat

/-- Go slice indexing `l[i]` on a `[]string`: panics (`none`) out of
bounds. -/
def goIndex (l : List Str) (i : Int) : Option Str :=
  if i < 0 then none else l[i.toNat]?

/-- ANSI reset marker (`ansi.Reset`).  The exact escape bytes of the style
markers are irrelevant to every verified property (they are opaque spans in
the rendered lines); what matters below is only that rendered instruction and
header lines are non-empty, which holds because of their leading spaces and
digits. -/
def ansiReset : Str := ['\x1b', '[', '0', 'm']

/-- `ansi.LightGreen` marker. -/
def lightGreen : Str := ['\x1b', '[', '9', '2', 'm']

/-- `ansi.LightBlue` marker. -/
def lightBlue : Str := ['\x1b', '[', '9', '4', 'm']

/-- `ansi.LightRed` marker. -/
def lightRed : Str := ['\x1b', '[', '9', '1', 'm']

/-- `ansi.LightMagenta` marker. -/
def lightMagenta : Str := ['\x1b', '[', '9', '5', 'm']

/-- `ansi.ColorCode("yellow+h+b")` marker. -/
def yellowHB : Str := ['\x1b', '[', '1', ';', '9', '3', 'm']

/-- `shorten` (main.go lines 214-216): `strings.ReplaceAll(l, "\t", "  ")`. -/
def shorten : Str → Str
  | [] => []
  | c :: cs => if c = '\t' then ' ' :: ' ' :: shorten cs else c :: shorten cs

/-- `fmt`'s `%-5s`: left-justify in a field of width five. -/
def padRight5 (s : Str) : Str := s ++ List.replicate (5 - s.length) ' '

/-- The mnemonic-class colouring (main.go lines 186-196), an else-if chain. -/
def renderColor (c : disamLine) : Str :=
  if c.instr = ['C', 'A', 'L', 'L'] ∨ c.instr = ['R', 'E', 'T'] then lightGreen
  else if hasPre ['J'] c.instr then lightBlue
  else if c.instr = ['U', 'D', '2'] then lightRed
  else if c.instr = ['I', 'N', 'T'] ∨ hasPre ['N', 'O', 'P'] c.instr then lightMagenta
  else []

/-- Does the decoded text trigger the blank separator line
(main.go line 207)? -/
def sepTrigger (c : disamLine) : Bool :=
  hasPre ['J', 'M', 'P', ' '] c.decoded || hasPre ['R', 'E', 'T', ' '] c.decoded ||
  hasPre ['U', 'D', '2', ' '] c.decoded

/-- Render one instruction of one symbol (main.go lines 172-210), given the
source file's lines and the last printed source line number.  Produces the
emitted output lines (the optional source-line header, the instruction line,
and the optional blank separator) and the new `lastLine`.  `lines[c.srcLine-1]`
at line 175 panics (`none`) when the source line number is out of range. -/
def renderInstr (srcLines : List Str) (lastLine : Int) (c : disamLine) :
    Option (List Str × Int) :=
  let headRes : Option (List Str × Int) :=
    if c.srcLine ≠ lastLine then
      match goIndex srcLines (c.srcLine - 1) with
      | none => none
      | some src =>
        some ([intToStr c.srcLine ++ [' ', ' '] ++ yellowHB ++ shorten src ++ ansiReset],
              c.srcLine)
    else some ([], lastLine)
  match headRes with
  | none => none
  | some (hd, last') =>
    let color := renderColor c
    let mainLine :=
      if c.«alias» ≠ [] then
        ' ' :: ' ' :: (color ++ padRight5 c.instr ++ ' ' :: c.«alias» ++ ansiReset)
      else if c.arg ≠ [] then
        ' ' :: ' ' :: (color ++ padRight5 c.instr ++ ' ' :: c.arg ++ ansiReset)
      else ' ' :: ' ' :: (color ++ c.instr ++ ansiReset)
    let sep : List Str := if sepTrigger c then [[]] else []
    some (hd ++ [mainLine] ++ sep, last')

/-!
The renderer sorts with `sort.Slice` (main.go lines 149 and 167).  `sort.Slice`
is Go's pattern-defeating quicksort (`sort/zsortfunc.go`, Go 1.19+), which the
documentation explicitly marks as not stable.  The embedding below follows
that file function by function; loops are fuel-indexed (the fuel passed at
each use strictly exceeds the possible iteration count for the sizes
involved, so exhaustion is unreachable on the inputs examined).
-/

section Pdqsort

variable {α : Type} [Inhabited α]

/-- `data.Less(i, j)` / `data.Swap(i, j)` access on the underlying slice. -/
def aget (v : Array α) (i : Nat) : α := v[i]!

/-- Swap two slice elements. -/
def aswap (v : Array α) (i j : Nat) : Array α :=
  let x := aget v i
  let y := aget v j
  (v.set! i y).set! j x

/-- Inner loop of `insertionSort_func`: bubble `v[j]` left while smaller. -/
def insSortInnerF (less : α → α → Bool) (a : Nat) : Nat → Array α → Nat → Array α
  | 0, v, _ => v
  | f + 1, v, j =>
    if a < j ∧ less (aget v j) (aget v (j - 1)) then
      insSortInnerF less a f (aswap v j (j - 1)) (j - 1)
    else v

/-- Outer loop of `insertionSort_func`. -/
def insSortOuterF (less : α → α → Bool) (a : Nat) : Nat → Array α → Nat → Nat → Array α
  | 0, v, _, _ => v
  | f + 1, v, i, b =>
    if i < b then insSortOuterF less a f (insSortInnerF less a i v i) (i + 1) b else v

/-- `insertionSort_func(data, a, b)`. -/
def insertionSortF (less : α → α → Bool) (v : Array α) (a b : Nat) : Array α :=
  insSortOuterF less a (b + 1) v (a + 1) b

/-- `siftDown_func(data, lo, hi, first)` (fuel ≥ heap depth). -/
def siftDownF (less : α → α → Bool) : Nat → Array α → Nat → Nat → Nat → Array α
  | 0, v, _, _, _ => v
  | f + 1, v, root, hi, first =>
    let child := 2 * root + 1
    if hi ≤ child then v
    else
      let child :=
        if child + 1 < hi ∧ less (aget v (first + child)) (aget v (first + child + 1)) then
          child + 1
        else child
      if ¬ less (aget v (first + root)) (aget v (first + child)) then v
      else siftDownF less f (aswap v (first + root) (first + child)) child hi first

/-- Heap construction: `for i := (hi-1)/2; i >= 0; i--` of `heapSort_func`. -/
def heapBuildF (less : α → α → Bool) : Nat → Array α → Nat → Nat → Array α
  | 0, v, _, _ => v
  | i + 1, v, hi, first => heapBuildF less i (siftDownF less hi v i hi first) hi first

/-- Pop phase: `for i := hi - 1; i >= 0; i--` of `heapSort_func`. -/
def heapPopF (less : α → α → Bool) : Nat → Array α → Nat → Nat → Array α
  | 0, v, _, _ => v
  | i + 1, v, hi, first =>
    heapPopF less i (siftDownF less hi (aswap v first (first + i)) 0 i first) hi first

/-- `heapSort_func(data, a, b)`. -/
def heapSortF (less : α → α → Bool) (v : Array α) (a b : Nat) : Array α :=
  let first := a
  let hi := b - a
  heapPopF less hi (heapBuildF less ((hi - 1) / 2 + 1) v hi first) hi first

/-- `order2_func`: order two indices by their elements, counting a swap. -/
def order2F (less : α → α → Bool) (v : Array α) (a b swaps : Nat) : Nat × Nat × Nat :=
  if less (aget v b) (aget v a) then (b, a, swaps + 1) else (a, b, swaps)

/-- `median_func`: index of the median of three elements. -/
def medianF (less : α → α → Bool) (v : Array α) (a b c swaps : Nat) : Nat × Nat :=
  let (a1, b1, s1) := order2F less v a b swaps
  let (b2, _, s2) := order2F less v b1 c s1
  let (_, b3, s3) := order2F less v a1 b2 s2
  (b3, s3)

/-- `medianAdjacent_func`: median of `v[a-1], v[a], v[a+1]`. -/
def medianAdjacentF (less : α → α → Bool) (v : Array α) (a swaps : Nat) : Nat × Nat :=
  medianF less v (a - 1) a (a + 1) swaps

/-- The `sortedHint` values of `choosePivot_func`. -/
inductive SortHint where
  | increasing
  | decreasing
  | unknown
  deriving DecidableEq, Inhabited

/-- Map the swap count to a hint (`maxSwaps = 12`). -/
def hintOfSwaps (s : Nat) : SortHint :=
  if s = 0 then .increasing else if s = 12 then .decreasing else .unknown

/-- `choosePivot_func(data, a, b)`: median (of medians for length ≥ 50) of
fixed sample positions, plus a sortedness hint. -/
def choosePivotF (less : α → α → Bool) (v : Array α) (a b : Nat) : Nat × SortHint :=
  let l := b - a
  let i := a + l / 4 * 1
  let j := a + l / 4 * 2
  let k := a + l / 4 * 3
  if 8 ≤ l then
    if 50 ≤ l then
      let (i', s1) := medianAdjacentF less v i 0
      let (j', s2) := medianAdjacentF less v j s1
      let (k', s3) := medianAdjacentF less v k s2
      let (jm, s4) := medianF less v i' j' k' s3
      (jm, hintOfSwaps s4)
    else
      let (jm, s) := medianF less v i j k 0
      (jm, hintOfSwaps s)
  else (j, hintOfSwaps 0)

/-- `reverseRange_func`'s loop. -/
def reverseRangeF : Nat → Array α → Nat → Nat → Array α
  | 0, v, _, _ => v
  | f + 1, v, i, j => if i < j then reverseRangeF f (aswap v i j) (i + 1) (j - 1) else v

/-- `reverseRange_func(data, a, b)`. -/
def reverseRangeTop (v : Array α) (a b : Nat) : Array α := reverseRangeF b v a (b - 1)

/-- `partition_func`'s upward scan: `for i <= j && data.Less(i, a) { i++ }`. -/
def scanUpF (less : α → α → Bool) (v : Array α) (a : Nat) : Nat → Nat → Nat → Nat
  | 0, i, _ => i
  | f + 1, i, j => if i ≤ j ∧ less (aget v i) (aget v a) then scanUpF less v a f (i + 1) j else i

/-- `partition_func`'s downward scan: `for i <= j && !data.Less(j, a) { j-- }`. -/
def scanDownF (less : α → α → Bool) (v : Array α) (a : Nat) : Nat → Nat → Nat → Nat
  | 0, _, j => j
  | f + 1, i, j =>
    if i ≤ j ∧ ¬ less (aget v j) (aget v a) then scanDownF less v a f i (j - 1) else j

/-- The `for {}` loop of `partition_func`. -/
def partitionLoopF (less : α → α → Bool) : Nat → Array α → Nat → Nat → Nat → Array α × Nat
  | 0, v, _, _, j => (v, j)
  | f + 1, v, a, i, j =>
    let i' := scanUpF less v a f i j
    let j' := scanDownF less v a f i' j
    if j' < i' then (v, j')
    else partitionLoopF less f (aswap v i' j') a (i' + 1) (j' - 1)

/-- `partition_func(data, a, b, pivot)`: Hoare partition around the pivot
moved to position `a`; returns the pivot's final position and whether the
range was already partitioned. -/
def partitionF (less : α → α → Bool) (fuel : Nat) (v : Array α) (a b pivot : Nat) :
    Array α × Nat × Bool :=
  let v := aswap v a pivot
  let i := scanUpF less v a fuel (a + 1) (b - 1)
  let j := scanDownF less v a fuel i (b - 1)
  if j < i then (aswap v j a, j, true)
  else
    let v := aswap v i j
    let (v, j') := partitionLoopF less fuel v a (i + 1) (j - 1)
    (aswap v j' a, j', false)

/-- `partitionEqual_func`'s upward scan: `for i <= j && !data.Less(a, i)`. -/
def scanUpEqF (less : α → α → Bool) (v : Array α) (a : Nat) : Nat → Nat → Nat → Nat
  | 0, i, _ => i
  | f + 1, i, j =>
    if i ≤ j ∧ ¬ less (aget v a) (aget v i) then scanUpEqF less v a f (i + 1) j else i

/-- `partitionEqual_func`'s downward scan: `for i <= j && data.Less(a, j)`. -/
def scanDownEqF (less : α → α → Bool) (v : Array α) (a : Nat) : Nat → Nat → Nat → Nat
  | 0, _, j => j
  | f + 1, i, j =>
    if i ≤ j ∧ less (aget v a) (aget v j) then scanDownEqF less v a f i (j - 1) else j

/-- The loop of `partitionEqual_func`; returns the first index of the
greater-than-pivot suffix. -/
def partitionEqLoopF (less : α → α → Bool) : Nat → Array α → Nat → Nat → Nat → Array α × Nat
  | 0, v, _, i, _ => (v, i)
  | f + 1, v, a, i, j =>
    let i' := scanUpEqF less v a f i j
    let j' := scanDownEqF less v a f i' j
    if j' < i' then (v, i')
    else partitionEqLoopF less f (aswap v i' j') a (i' + 1) (j' - 1)

/-- `partitionEqual_func(data, a, b, pivot)`. -/
def partitionEqualF (less : α → α → Bool) (fuel : Nat) (v : Array α) (a b pivot : Nat) :
    Array α × Nat :=
  let v := aswap v a pivot
  partitionEqLoopF less fuel v a (a + 1) (b - 1)

/-- Scan of already-sorted prefix inside Go's partial insertion sort:
`for i < b && !data.Less(i, i-1) { i++ }`. -/
def scanSortedF (less : α → α → Bool) (v : Array α) : Nat → Nat → Nat → Nat
  | 0, i, _ => i
  | f + 1, i, b =>
    if i < b ∧ ¬ less (aget v i) (aget v (i - 1)) then scanSortedF less v f (i + 1) b else i

/-- Leftward shift loop (`for j := i - 1; j >= 1; j--`) of Go's partial
insertion sort. -/
def shiftLeftF (less : α → α → Bool) : Nat → Array α → Nat → Array α
  | 0, v, _ => v
  | f + 1, v, j =>
    if 1 ≤ j ∧ less (aget v j) (aget v (j - 1)) then
      shiftLeftF less f (aswap v j (j - 1)) (j - 1)
    else v

/-- Rightward shift loop (`for j := i + 1; j < b; j++`). -/
def shiftRightF (less : α → α → Bool) : Nat → Array α → Nat → Nat → Array α
  | 0, v, _, _ => v
  | f + 1, v, j, b =>
    if j < b ∧ less (aget v j) (aget v (j - 1)) then
      shiftRightF less f (aswap v j (j - 1)) (j + 1) b
    else v

/-- Go's `partialInsertionSort_func` main loop (`maxSteps = 5` is the fuel;
`shortestShifting = 50`).  Returns the slice and whether it ended sorted. -/
def insSortPartialGo (less : α → α → Bool) : Nat → Array α → Nat → Nat → Nat → Array α × Bool
  | 0, v, _, _, _ => (v, false)
  | steps + 1, v, a, b, i =>
    let i := scanSortedF less v b i b
    if i = b then (v, true)
    else if b - a < 50 then (v, false)
    else
      let v := aswap v i (i - 1)
      let v := if 2 ≤ i - a then shiftLeftF less i v (i - 1) else v
      let v := if 2 ≤ b - i then shiftRightF less b v (i + 1) b else v
      insSortPartialGo less steps v a b i

/-- `partialInsertionSort_func(data, a, b)`. -/
def insSortPartialF (less : α → α → Bool) (v : Array α) (a b : Nat) : Array α × Bool :=
  insSortPartialGo less 5 v a b (a + 1)

/-- `bits.Len`. -/
def bitsLen (n : Nat) : Nat := if n = 0 then 0 else Nat.log2 n + 1

/-- sort's `nextPowerOfTwo`. -/
def nextPowerOfTwo (length : Nat) : Nat := 1 <<< bitsLen length

/-- sort's `xorshift.Next` (64-bit xorshift, shifts 13/7/17); returns the new
state, which is also the produced value. -/
def xsNext (r : Nat) : Nat :=
  let r1 := (r ^^^ (r <<< 13)) % 2 ^ 64
  let r2 := r1 ^^^ (r1 >>> 7)
  (r2 ^^^ (r2 <<< 17)) % 2 ^ 64

/-- `breakPatterns_func(data, a, b)`: swap three elements near the middle with
pseudo-randomly chosen ones (xorshift seeded with the length). -/
def breakPatternsF (v : Array α) (a b : Nat) : Array α :=
  let length := b - a
  if 8 ≤ length then
    let modulus := nextPowerOfTwo length
    let idx := a + (length / 4) * 2 - 1
    let pick := fun (r : Nat) =>
      let other := r &&& (modulus - 1)
      if length ≤ other then other - length else other
    let r1 := xsNext length
    let v := aswap v (idx - 1 + 0) (a + pick r1)
    let r2 := xsNext r1
    let v := aswap v (idx - 1 + 1) (a + pick r2)
    let r3 := xsNext r2
    aswap v (idx - 1 + 2) (a + pick r3)
  else v

/-- `pdqsort_func(data, a, b, limit)`.  The extra `Bool` arguments are the
loop-carried `wasBalanced` / `wasPartitioned` flags (both `true` at every
entry from `sort.Slice` or a recursive call); the fuel bounds the combined
loop-iteration/recursion count. -/
def pdqsortF (less : α → α → Bool) :
    Nat → Array α → Nat → Nat → Nat → Bool → Bool → Array α
  | 0, v, _, _, _, _, _ => v
  | fuel + 1, v, a, b, limit, wasBalanced, wasPartitioned =>
    let length := b - a
    if length ≤ 12 then insertionSortF less v a b
    else if limit = 0 then heapSortF less v a b
    else
      let (v, limit) :=
        if ¬ wasBalanced then (breakPatternsF v a b, limit - 1) else (v, limit)
      let (pivot, hint) := choosePivotF less v a b
      let (v, pivot, hint) :=
        if hint = SortHint.decreasing then
          (reverseRangeTop v a b, (b - 1) - (pivot - a), SortHint.increasing)
        else (v, pivot, hint)
      let (v, earlyDone) :=
        if wasBalanced ∧ wasPartitioned ∧ hint = SortHint.increasing then
          insSortPartialF less v a b
        else (v, false)
      if earlyDone then v
      else if 0 < a ∧ ¬ less (aget v (a - 1)) (aget v pivot) then
        let (v, mid) := partitionEqualF less b v a b pivot
        pdqsortF less fuel v mid b limit wasBalanced wasPartitioned
      else
        let (v, mid, alreadyPartitioned) := partitionF less b v a b pivot
        let leftLen := mid - a
        let rightLen := b - mid
        let balanceThreshold := length / 8
        let wasBalanced' := balanceThreshold ≤ min leftLen rightLen
        if leftLen < rightLen then
          let v := pdqsortF less fuel v a mid limit true true
          pdqsortF less fuel v (mid + 1) b limit wasBalanced' alreadyPartitioned
        else
          let v := pdqsortF less fuel v (mid + 1) b limit true true
          pdqsortF less fuel v a mid limit wasBalanced' alreadyPartitioned

/-- `sort.Slice(x, less)`: `pdqsort_func(lessSwap, 0, n, bits.Len(n))`, on a
list.  The fuel `l.length + 16` strictly exceeds the reachable recursion
depth for the list sizes evaluated below. -/
def sortSliceList (less : α → α → Bool) (l : List α) : List α :=
  (pdqsortF less (l.length + 16) l.toArray 0 l.length (bitsLen l.length) true true).toList

end Pdqsort

/-- Go `<` on strings: lexicographic byte order (codepoint order coincides on
these inputs). -/
def strLt : Str → Str → Bool
  | [], [] => false
  | [], _ :: _ => true
  | _ :: _, [] => false
  | a :: as, b :: bs => if a = b then strLt as bs else decide (a < b)

/-- The symbol comparator of `printAnnotated` (main.go lines 149-156):
`(file, symbol)` lexicographic. -/
def symLess (x y : disasmSym) : Bool :=
  if x.file ≠ y.file then strLt x.file y.file else strLt x.symbol y.symbol

/-- The instruction comparator (main.go lines 167-169): by `srcLine` only. -/
def contentLess (x y : disamLine) : Bool := decide (x.srcLine < y.srcLine)

/-- The renderer's symbol sort: `sort.Slice(d, ...)` at line 149. -/
def sortSymbols (d : List disasmSym) : List disasmSym := sortSliceList symLess d

/-- The renderer's per-symbol instruction sort: `sort.Slice(s.content, ...)`
at line 167. -/
def sortContent (cs : List disamLine) : List disamLine := sortSliceList contentLess cs

/-! ### Helper lemmas about the string model -/

theorem findCharIdx_lt_length {c : Char} :
    ∀ {s : Str} {n : Nat}, findCharIdx c s = some n → n < s.length := by
  intro s
  induction s with
  | nil => intro n h; simp [findCharIdx] at h
  | cons x xs ih =>
    intro n h
    simp only [findCharIdx] at h
    split at h
    · cases h; simp
    · cases hx : findCharIdx c xs with
      | none => rw [hx] at h; simp at h
      | some k =>
        rw [hx] at h
        simp only [Option.map_some'] at h
        cases h
        have := ih hx
        simp; omega

theorem findCharIdx_getElem {c : Char} :
    ∀ {s : Str} {n : Nat} (h : findCharIdx c s = some n),
      s.get ⟨n, findCharIdx_lt_length h⟩ = c := by
  intro s
  induction s with
  | nil => intro n h; simp [findCharIdx] at h
  | cons x xs ih =>
    intro n h
    have h' := h
    simp only [findCharIdx] at h'
    split at h'
    · cases h'
      simpa using by assumption
    · cases hx : findCharIdx c xs with
      | none => rw [hx] at h'; simp at h'
      | some k =>
        rw [hx] at h'
        simp only [Option.map_some'] at h'
        cases h'
        have := ih hx
        simpa using this

/-- Split `take j` at an interior position `i` holding element `c`. -/
theorem take_decomp {β : Type} {s : List β} {i j : Nat} {c : β}
    (hij : i < j) (hj : j ≤ s.length)
    (hc : s.get ⟨i, lt_of_lt_of_le hij hj⟩ = c) :
    s.take j = s.take i ++ c :: (s.drop (i + 1)).take (j - (i + 1)) := by
  have h1 : s.take j = s.take i ++ (s.drop i).take (j - i) := by
    conv_lhs => rw [show j = i + (j - i) by omega]
    exact List.take_add s i (j - i)
  have hdrop : s.drop i = c :: s.drop (i + 1) := by
    rw [List.drop_eq_getElem_cons (lt_of_lt_of_le hij hj)]
    rw [List.get_eq_getElem] at hc
    rw [hc]
  have h2 : (s.drop i).take (j - i) = c :: (s.drop (i + 1)).take (j - (i + 1)) := by
    rw [hdrop]
    have : j - i = (j - (i + 1)) + 1 := by omega
    rw [this, List.take_succ_cons]
  rw [h1, h2]

theorem findCharIdx_zero {c : Char} {s : Str} (h : findCharIdx c s = some 0) :
    s.head? = some c := by
  cases s with
  | nil => simp [findCharIdx] at h
  | cons x xs =>
    simp only [findCharIdx] at h
    split at h
    · rename_i hx; simp [hx]
    · cases hfx : findCharIdx c xs with
      | none => rw [hfx] at h; simp at h
      | some k => rw [hfx] at h; simp at h

theorem dropWhile_head_false {p : Char → Bool} :
    ∀ {s : Str} {c : Char} {r : Str}, s.dropWhile p = c :: r → p c = false := by
  intro s
  induction s with
  | nil => intro c r h; simp [List.dropWhile] at h
  | cons x xs ih =>
    intro c r h
    rw [List.dropWhile_cons] at h
    split at h
    · exact ih h
    · cases h
      rename_i hnp
      simpa using hnp

theorem all_space_of_trim_nil {s : Str} (h : trimSpace s = []) :
    ∀ c ∈ s, isGoSpace c = true := by
  unfold trimSpace trimRight at h
  rw [List.reverse_eq_nil_iff] at h
  rw [List.dropWhile_eq_nil_iff] at h
  intro c hc
  rcases (List.mem_append.mp
    (by rw [List.takeWhile_append_dropWhile (p := isGoSpace) (l := s)]; exact hc :
      c ∈ s.takeWhile isGoSpace ++ s.dropWhile isGoSpace)) with h1 | h1
  · exact List.mem_takeWhile_imp h1
  · exact h c (List.mem_reverse.mpr h1)

theorem trim_ne_nil_of_mem {s : Str} {c : Char} (hc : c ∈ s)
    (hns : isGoSpace c = false) : trimSpace s ≠ [] := by
  intro h
  have := all_space_of_trim_nil h c hc
  rw [hns] at this
  exact Bool.false_ne_true this

theorem trim_head_not_space {s : Str} {c : Char} {r : Str}
    (h : trimSpace s = c :: r) : isGoSpace c = false := by
  unfold trimSpace trimRight at h
  set X := s.dropWhile isGoSpace with hX
  have hx : X = c :: r ++ (X.reverse.takeWhile isGoSpace).reverse := by
    conv_lhs => rw [← X.reverse_reverse]
    rw [← List.takeWhile_append_dropWhile (p := isGoSpace) (l := X.reverse)]
    rw [List.reverse_append, h]
    simp
  exact dropWhile_head_false (p := isGoSpace) (s := s) (by rw [← hX, hx]; rfl)

theorem trim_getLast_not_space {s : Str} {c : Char}
    (h : (trimSpace s).getLast? = some c) : isGoSpace c = false := by
  unfold trimSpace trimRight at h
  rw [List.getLast?_reverse] at h
  cases hY : (s.dropWhile isGoSpace).reverse.dropWhile isGoSpace with
  | nil => rw [hY] at h; simp at h
  | cons y ys =>
    rw [hY] at h
    simp only [List.head?_cons, Option.some.injEq] at h
    subst h
    exact dropWhile_head_false hY

theorem getLast?_drop {β : Type} {l : List β} {n : Nat} (h : n < l.length) :
    (l.drop n).getLast? = l.getLast? := by
  rw [List.getLast?_eq_getElem?, List.getLast?_eq_getElem?]
  rw [List.getElem?_drop]
  congr 1
  rw [List.length_drop]
  omega

/-! ### Structure of a successfully parsed instruction line -/

/-- Every successfully parsed instruction has a non-empty mnemonic, an empty
alias, its own `binOffset` as its address-index key, and an index value of the
form `file ++ ":" ++ t` where `t` is the raw line-number text accepted by
`Atoi`. -/
theorem parseInstr_ok {l : Str} {a : disamLine} {k : Int} {fs : Str}
    (h : parseInstr l = .ok (a, k, fs)) :
    k = a.binOffset ∧ a.«alias» = [] ∧ a.instr ≠ [] ∧
      ∃ t, fs = a.file ++ ':' :: t ∧ goAtoi t = some a.srcLine := by
  simp only [parseInstr] at h
  split at h <;> try exact Except.noConfusion h
  rename_i i j hi hj
  split at h
  case isFalse => exact Except.noConfusion h
  case isTrue hij =>
  split at h <;> try exact Except.noConfusion h
  rename_i srcLine hatoi
  split at h <;> try exact Except.noConfusion h
  rename_i j2 hj2
  split at h <;> try exact Except.noConfusion h
  rename_i binOff hoff
  split at h <;> try exact Except.noConfusion h
  rename_i j3 hj3
  -- shared facts about `decoded`
  have hlt3 := findCharIdx_lt_length hj3
  have hl4get := findCharIdx_getElem hj3
  rw [List.get_eq_getElem] at hl4get
  set l2 := l.drop 2 with hl2
  set l3 := trimSpace (l2.drop j) with hl3
  set l4 := trimSpace (l3.drop j2) with hl4
  have hl4ne : l4 ≠ [] := List.ne_nil_of_length_pos (by omega)
  have hlast : ∃ z, l4.getLast? = some z ∧ isGoSpace z = false := by
    rcases Option.isSome_iff_exists.mp (List.getLast?_isSome.mpr hl4ne) with ⟨z, hz⟩
    exact ⟨z, hz, trim_getLast_not_space (by rw [hl4] at hz; exact hz)⟩
  rcases hlast with ⟨z, hz, hzns⟩
  have hj3lt : j3 < l4.length - 1 := by
    rcases Nat.lt_or_ge j3 (l4.length - 1) with hlt | hge
    · exact hlt
    · exfalso
      have hj3eq : j3 = l4.length - 1 := by omega
      have : l4.getLast? = some '\t' := by
        rw [List.getLast?_eq_getElem?]
        rw [← hj3eq]
        simp [List.getElem?_eq_getElem hlt3, hl4get]
      rw [hz] at this
      injection this with hzt
      subst hzt
      simp [isGoSpace] at hzns
  have hzmem : z ∈ l4.drop j3 := by
    have hdne : (l4.drop j3).getLast? = some z := by
      rw [getLast?_drop hlt3]; exact hz
    have hdnn : l4.drop j3 ≠ [] := by
      intro hx; rw [hx] at hdne; exact Option.noConfusion hdne
    rw [List.getLast?_eq_getLast _ hdnn] at hdne
    injection hdne with hdz
    rw [← hdz]
    exact List.getLast_mem hdnn
  have hdecne : trimSpace (l4.drop j3) ≠ [] := trim_ne_nil_of_mem hzmem hzns
  set decoded := trimSpace (l4.drop j3) with hdec
  clear_value decoded
  have hinstr_ne : ∀ (js : Nat), findCharIdx ' ' decoded = some js →
      decoded.take js ≠ [] := by
    intro js hjs
    have hjsne : js ≠ 0 := by
      intro h0
      subst h0
      cases hd : decoded with
      | nil => exact hdecne hd
      | cons d0 ds =>
        have hd0 : isGoSpace d0 = false :=
          trim_head_not_space (s := l4.drop j3) (by rw [← hdec]; exact hd)
        rw [hd] at hjs
        have hhd := findCharIdx_zero hjs
        simp only [List.head?_cons, Option.some.injEq] at hhd
        rw [hhd] at hd0
        simp [isGoSpace] at hd0
    intro hcon
    rcases List.take_eq_nil_iff.mp hcon with h0 | h0
    · exact hjsne h0
    · exact hdecne h0
  -- now split on the operand separator and finish
  split at h <;>
    (cases h
     refine ⟨rfl, rfl, ?_, ?_⟩)
  · exact hinstr_ne _ (by assumption)
  · refine ⟨(l2.drop (i + 1)).take (j - (i + 1)), ?_, hatoi⟩
    have hjlt := findCharIdx_lt_length hj
    have higet := findCharIdx_getElem hi
    exact take_decomp (by omega) (by omega) higet
  · exact hdecne
  · refine ⟨(l2.drop (i + 1)).take (j - (i + 1)), ?_, hatoi⟩
    have hjlt := findCharIdx_lt_length hj
    have higet := findCharIdx_getElem hi
    exact take_decomp (by omega) (by omega) higet

/-! ### The parse pass: instruction/address-index trace -/

/-- All instructions of a symbol list, in order. -/
def allInstrs (out : List disasmSym) : List disamLine :=
  (out.map disasmSym.content).flatten

theorem allInstrs_append_single (out : List disasmSym) (s : disasmSym) :
    allInstrs (out ++ [s]) = allInstrs out ++ s.content := by
  simp [allInstrs]

theorem allInstrs_appendLast (a : disamLine) :
    ∀ (out : List disasmSym), out ≠ [] →
      allInstrs (appendLast a out) = allInstrs out ++ [a] := by
  intro out
  induction out with
  | nil => intro h; exact absurd rfl h
  | cons d ds ih =>
    intro _
    cases ds with
    | nil => simp [appendLast, allInstrs]
    | cons d2 ds2 =>
      have := ih (by simp)
      simp only [appendLast, allInstrs, List.map_cons, List.flatten_cons] at this ⊢
      rw [this]
      simp [List.append_assoc]

/-- The invariant carried by each parsed instruction together with its
address-index entry. -/
def goodEntry (p : disamLine × Int × Str) : Prop :=
  p.2.1 = p.1.binOffset ∧ p.1.instr ≠ [] ∧ p.1.«alias» = [] ∧
    ∃ t, p.2.2 = p.1.file ++ ':' :: t ∧ goAtoi t = some p.1.srcLine

/-- Trace of a successful parse: relative to the starting state, the parse
appends a list `L` of instructions (in order, across symbol boundaries) and
pushes exactly their address-index entries (most recent first), and every
appended instruction satisfies `goodEntry`. -/
theorem parse_trace :
    ∀ (ls : List Str) (out : List disasmSym) (m : AddrMap)
      (out' : List disasmSym) (m' : AddrMap),
      List.foldlM parseStep (out, m) ls = .ok (out', m') →
      ∃ L : List (disamLine × Int × Str),
        allInstrs out' = allInstrs out ++ L.map (·.1) ∧
        m' = (L.map (fun p => (p.2.1, p.2.2))).reverse ++ m ∧
        ∀ p ∈ L, goodEntry p := by
  intro ls
  induction ls with
  | nil =>
    intro out m out' m' h
    simp only [List.foldlM_nil] at h
    cases h
    exact ⟨[], by simp, by simp, by simp⟩
  | cons l ls ih =>
    intro out m out' m' h
    rw [List.foldlM_cons] at h
    cases hstep : parseStep (out, m) l with
    | error e => rw [hstep] at h; exact Except.noConfusion h
    | ok st' =>
      rw [hstep] at h
      obtain ⟨L', hA, hM, hG⟩ := ih st'.1 st'.2 out' m' (by
        cases st'
        exact h)
      -- case-analyse the step to relate `st'` to `(out, m)`
      simp only [parseStep] at hstep
      split at hstep
      · -- empty line: state unchanged
        cases hstep
        exact ⟨L', hA, hM, hG⟩
      · split at hstep
        · -- header line
          split at hstep <;> try exact Except.noConfusion hstep
          cases hstep
          refine ⟨L', ?_, hM, hG⟩
          rw [hA]
          rw [show allInstrs (out ++ [⟨_, _, []⟩]) = allInstrs out from by
            rw [allInstrs_append_single]; simp]
        · split at hstep
          · exact Except.noConfusion hstep
          · -- instruction line
            rename_i hguard
            push_neg at hguard
            split at hstep <;> try exact Except.noConfusion hstep
            rename_i a off fileSrc hinstr
            cases hstep
            obtain ⟨hk, hal, hne, t, hfs, hat⟩ := parseInstr_ok hinstr
            refine ⟨(a, off, fileSrc) :: L', ?_, ?_, ?_⟩
            · rw [hA]
              simp only at *
              rw [allInstrs_appendLast a out hguard.2]
              simp [List.append_assoc]
            · rw [hM]
              simp [List.append_assoc]
            · intro p hp
              rcases List.mem_cons.mp hp with hp | hp
              · subst hp
                exact ⟨hk, hne, hal, t, hfs, hat⟩
              · exact hG p hp

/-- A `J`-prefixed or any non-empty mnemonic never makes the resolver
panic. -/
theorem resolveLine_isSome {m : AddrMap} {c : disamLine} (h : c.instr ≠ []) :
    (resolveLine m c).isSome := by
  unfold resolveLine
  split
  · rename_i heq
    exact absurd heq h
  · split
    · split
      · dsimp only
        split <;> simp
      · simp
    · simp

theorem mapOpt_isSome {α β : Type} {f : α → Option β} :
    ∀ {l : List α}, (∀ a ∈ l, (f a).isSome) → (mapOpt f l).isSome := by
  intro l
  induction l with
  | nil => intro _; simp [mapOpt]
  | cons a as ih =>
    intro h
    have ha := h a (by simp)
    have has := ih (fun x hx => h x (by simp [hx]))
    unfold mapOpt
    cases hfa : f a with
    | none => rw [hfa] at ha; exact absurd ha (by simp)
    | some b =>
      cases hms : mapOpt f as with
      | none => rw [hms] at has; exact absurd has (by simp)
      | some bs => simp

/-- Lookup in an association list whose keys are pairwise distinct finds the
unique entry. -/
theorem find_unique_key :
    ∀ {l : AddrMap} {k : Int} {v : Str},
      (k, v) ∈ l → (l.map Prod.fst).Pairwise (· ≠ ·) →
      l.find? (fun p => p.1 == k) = some (k, v) := by
  intro l
  induction l with
  | nil => intro k v hmem _; simp at hmem
  | cons kv rest ih =>
    intro k v hmem hpw
    obtain ⟨k', v'⟩ := kv
    rw [List.map_cons, List.pairwise_cons] at hpw
    rcases List.mem_cons.mp hmem with hh | ht
    · cases hh
      exact List.find?_cons_of_pos _ (by simp)
    · have hk : k' ≠ k := by
        apply hpw.1
        exact List.mem_map.mpr ⟨(k, v), ht, rfl⟩
      rw [List.find?_cons_of_neg _ (by simp [hk])]
      exact ih ht hpw.2

theorem mapGet_of_find {m : AddrMap} {k : Int} {v : Str}
    (h : m.find? (fun p => p.1 == k) = some (k, v)) : mapGet m k = v := by
  unfold mapGet
  rw [h]

/-! ### The file filter: duplication, non-termination, idempotence -/

theorem goCopyDel_take {α : Type} (out : List α) (i : Nat) (hi : i < out.length) :
    (goCopyDel out i).take i = out.take i := by
  unfold goCopyDel
  rw [List.append_assoc]
  rw [List.take_append_of_le_length (by rw [List.length_take]; omega)]
  rw [List.take_take]
  congr 1
  omega

/-- After a terminating filter run, every element of the result matches. -/
theorem goFilterLoop_post {α : Type} {p : α → Bool} :
    ∀ (fuel : Nat) (out : List α) (i : Nat) (res : List α),
      goFilterLoop p fuel out i = some res →
      (∀ x ∈ out.take i, p x) → ∀ x ∈ res, p x := by
  intro fuel
  induction fuel with
  | zero => intro out i res h _; exact Option.noConfusion h
  | succ n ih =>
    intro out i res h hpre
    unfold goFilterLoop at h
    split at h
    · rename_i hi
      split at h
      · rename_i hmatch
        refine ih out (i + 1) res h ?_
        intro x hx
        rw [List.take_succ] at hx
        rcases List.mem_append.mp hx with hx | hx
        · exact hpre x hx
        · rw [List.getElem?_eq_getElem hi] at hx
          simp only [Option.toList_some, List.mem_singleton] at hx
          subst hx
          simpa [List.get_eq_getElem] using hmatch
      · refine ih (goCopyDel out i) i res h ?_
        rw [goCopyDel_take out i hi]
        exact hpre
    · cases h
      rename_i hi
      intro x hx
      exact hpre x (by rw [List.take_of_length_le (by omega)]; exact hx)

/-- If every element matches, the filter loop terminates and is the
identity. -/
theorem goFilterLoop_id {α : Type} {p : α → Bool} :
    ∀ (fuel : Nat) (out : List α) (i : Nat),
      (∀ x ∈ out, p x) → out.length - i < fuel →
      goFilterLoop p fuel out i = some out := by
  intro fuel
  induction fuel with
  | zero => intro out i _ h; omega
  | succ n ih =>
    intro out i hall hlt
    unfold goFilterLoop
    split
    · rename_i hi
      rw [if_pos (hall _ (List.get_mem out i hi))]
      exact ih out (i + 1) hall (by omega)
    · rfl

/-- C4 demo symbols (shared by the filter claims). -/
def symAGo : disasmSym := ⟨"a.go".toList, "symA".toList, []⟩

/-- Second demo symbol, whose file basename is `b.go`. -/
def symBGo : disasmSym := ⟨"b.go".toList, "symB".toList, []⟩

/-- C1.  The claim says the filter returns exactly the matching symbols; the
code's `copy` without truncation instead duplicates the tail.  Filtering
`[a.go, b.go]` for `b.go` yields `[b.go, b.go]` — the matching symbol twice —
not `[b.go]`. -/
theorem filter_retains_duplicates :
    fileFilter "b.go".toList 10 [symAGo, symBGo] = some [symBGo, symBGo] := by
  rfl

/-- C2.  The claim says the filter always terminates; if the last symbol does
not match, `copy(out[i:], out[i+1:])` leaves the state unchanged and the loop
re-examines the same index forever: no fuel suffices. -/
theorem filter_nonterminating (fuel : Nat) :
    fileFilter "b.go".toList fuel [symAGo] = none := by
  show goFilterLoop (symMatches "b.go".toList) fuel [symAGo] 0 = none
  induction fuel with
  | zero => rfl
  | succ n ih =>
    have hstep : goFilterLoop (symMatches "b.go".toList) (n + 1) [symAGo] 0 =
        goFilterLoop (symMatches "b.go".toList) n [symAGo] 0 := rfl
    rw [hstep]
    exact ih

/-- C4.  Filtering is idempotent in the partial-correctness sense: whenever
the filter stage terminates on `S` with result `T`, running it again on `T`
terminates with `T` (every surviving element matches, so the second pass
deletes nothing). -/
theorem filter_idempotent (file : Str) (S T : List disasmSym)
    (h : FilterRuns file S T) : FilterRuns file T T := by
  obtain ⟨fuel, hrun⟩ := h
  unfold fileFilter at hrun
  by_cases hf : file = []
  · rw [if_pos hf] at hrun
    cases hrun
    exact ⟨0, by unfold fileFilter; rw [if_pos hf]⟩
  · rw [if_neg hf] at hrun
    have hall : ∀ x ∈ T, symMatches file x :=
      goFilterLoop_post fuel S 0 T hrun (by simp)
    refine ⟨T.length + 1, ?_⟩
    unfold fileFilter
    rw [if_neg hf]
    exact goFilterLoop_id (T.length + 1) T 0 hall (by omega)

/-- Witness for C4 at a concrete input: filtering `[b.go]` for `b.go`
terminates with `[b.go]`, and filtering the result again returns it. -/
theorem filter_idempotent_witness : FilterRuns "b.go".toList [symBGo] [symBGo] :=
  filter_idempotent "b.go".toList [symBGo] [symBGo] ⟨2, rfl⟩

/-! ### The renderer's sorts are not stable -/

/-- A bare instruction record carrying only a sort key (`srcLine`) and an
identity tag (`binOffset` = original position); the other fields do not
influence `contentLess`. -/
def c5line (k : Int) (id : Int) : disamLine := ⟨[], k, id, [], [], [], [], []⟩

/-- Thirteen instructions (the smallest `sort.Slice` size that leaves the
stable insertion-sort path), alternating source lines 5 and 3. -/
def c5demo : List disamLine :=
  [c5line 5 0, c5line 3 1, c5line 5 2, c5line 3 3, c5line 5 4, c5line 3 5,
   c5line 5 6, c5line 3 7, c5line 5 8, c5line 3 9, c5line 5 10, c5line 3 11,
   c5line 5 12]

set_option maxRecDepth 4000 in
/-- C5.  The renderer's instruction sort (`sort.Slice` by `srcLine`) is not
stable: on `c5demo` the instruction originally at position 9 (srcLine 3) ends
up *before* the one at position 1 (also srcLine 3), and position 0
(srcLine 5) ends up after positions 2,4,6,8 — equal-key elements are
reordered.  (The pivot chosen at index 9 is swapped to the front by
`partition_func`, jumping over the equal-key elements in between.) -/
theorem sortSlice_unstable_eval :
    (sortContent c5demo).map (fun c => (c.srcLine, c.binOffset)) =
      [(3, 9), (3, 1), (3, 3), (3, 5), (3, 7), (3, 11),
       (5, 2), (5, 4), (5, 6), (5, 8), (5, 0), (5, 10), (5, 12)] ∧
    c5demo.map (fun c => (c.srcLine, c.binOffset)) =
      [(5, 0), (3, 1), (5, 2), (3, 3), (5, 4), (3, 5),
       (5, 6), (3, 7), (5, 8), (3, 9), (5, 10), (3, 11), (5, 12)] :=
  ⟨rfl, rfl⟩

/-! ### Totality of parse and resolve (C3) -/

/-- A header followed by an instruction line with no ':' and no tab: the
source computes `IndexByte` = -1 and then slices `l[:-1]`, which panics. -/
def c3badLines : List Str := ["TEXT a b".toList, "  x".toList]

/-- Counterexample to C3 as stated: a line violating the delimiter grammar
aborts abnormally (Go runtime panic from a negative slice bound), rather than
producing records or a returned FormatError. -/
theorem parse_panic_cex : parseLines c3badLines = .error .panicErr := rfl

theorem resolveSym_isSome {m : AddrMap} {s : disasmSym}
    (h : ∀ c ∈ s.content, c.instr ≠ []) : (resolveSym m s).isSome := by
  unfold resolveSym
  have := mapOpt_isSome (f := resolveLine m) (l := s.content)
    (fun c hc => resolveLine_isSome (h c hc))
  cases hm : mapOpt (resolveLine m) s.content with
  | none => rw [hm] at this; exact absurd this (by simp)
  | some cs => simp

/-- C3 (amended).  Whenever the parse pass succeeds, the resolve pass is
total: it never hits the `c.instr[0]` panic, because every parsed mnemonic is
non-empty (the decoded text is trimmed and cannot be empty or start with a
space).  The delimiter violations that crash the parse itself are exhibited by
`parse_panic_cex`. -/
theorem resolve_total_after_parse (ls : List Str) (out : List disasmSym)
    (m : AddrMap) (h : parseLines ls = .ok (out, m)) :
    ∃ out', resolveAll m out = some out' := by
  obtain ⟨L, hA, _, hG⟩ := parse_trace ls [] [] out m h
  have hins : ∀ c ∈ allInstrs out, c.instr ≠ [] := by
    intro c hc
    rw [hA] at hc
    simp only [allInstrs, List.map_nil, List.flatten_nil, List.nil_append] at hc
    obtain ⟨p, hp, hp1⟩ := List.mem_map.mp hc
    have := (hG p hp).2.1
    rw [hp1] at this
    exact this
  have : (resolveAll m out).isSome := by
    unfold resolveAll
    refine mapOpt_isSome (fun s hs => resolveSym_isSome (fun c hc => ?_))
    refine hins c ?_
    exact List.mem_flatten.mpr ⟨s.content, List.mem_map_of_mem _ hs, hc⟩
  exact Option.isSome_iff_exists.mp this

/-- The instruction of the two-line demo listing. -/
def c3demoLine : disamLine :=
  ⟨"f.go".toList, 1, 16, "cc".toList, "RET".toList, "RET".toList, [], []⟩

/-- Parsed symbols of the demo listing. -/
def c3demoOut : List disasmSym := [⟨"b".toList, "a".toList, [c3demoLine]⟩]

/-- Address index of the demo listing. -/
def c3demoM : AddrMap := [(16, "f.go:1".toList)]

/-- Witness for C3's amended theorem at a concrete successful parse. -/
theorem resolve_total_after_parse_witness :
    ∃ out', resolveAll c3demoM c3demoOut = some out' :=
  resolve_total_after_parse
    ["TEXT a b".toList, "  f.go:1\t16\tcc\tRET".toList] c3demoOut c3demoM rfl

/-! ### The indentation rule (C6) -/

/-- Classification of `parseInstr` results: it only ever returns a record or
one of the `atoiErr` / `parseIntErr` / `panicErr` failures — never an
`errorDecoding`. -/
theorem parseInstr_cases (l : Str) :
    (∃ r, parseInstr l = .ok r) ∨ parseInstr l = .error .atoiErr ∨
      parseInstr l = .error .parseIntErr ∨ parseInstr l = .error .panicErr := by
  simp only [parseInstr]
  split
  · split
    · split
      · simp
      · split
        · simp
        · split
          · simp
          · split
            · simp
            · split <;> simp
    · simp
  · simp

theorem parseInstr_no_decode {l l' : Str} :
    parseInstr l ≠ .error (.errorDecoding l') := by
  intro h
  rcases parseInstr_cases l with ⟨r, hr⟩ | hr | hr | hr <;> rw [hr] at h <;> simp at h

/-- The three-space line is accepted as an instruction line (with the extra
space silently absorbed into the parsed file name), not rejected. -/
def c6lines : List Str :=
  ["TEXT a b".toList, "   x.go:5\t0x10\tcc\tRET".toList]

/-- The instruction parsed from the three-space line: note the leading space
in its `file` field. -/
def c6line : disamLine :=
  ⟨" x.go".toList, 5, 16, "cc".toList, "RET".toList, "RET".toList, [], []⟩

/-- Counterexample to C6 as stated: a non-header line with three leading
spaces is *not* rejected as a FormatError — `HasPrefix(l, "  ")` only requires
at least two spaces, so the parse succeeds (silently corrupting the file
name). -/
theorem three_space_line_accepted_cex :
    parseLines c6lines =
      .ok ([⟨"b".toList, "a".toList, [c6line]⟩], [(16, " x.go:5".toList)]) := rfl

/-- C6 (amended).  For a non-empty, non-header line, the parse step fails
with the `error decoding` FormatError exactly when the line lacks *at least*
two leading spaces or no symbol is open.  (The claim's "exactly two" is the
only incorrect part: more than two leading spaces are accepted.) -/
theorem nonheader_error_iff (out : List disasmSym) (m : AddrMap) (l : Str)
    (hne : l ≠ []) (hh : hasPre textHeaderPre l = false) :
    parseStep (out, m) l = .error (.errorDecoding l) ↔
      (hasPre twoSpaces l = false ∨ out = []) := by
  unfold parseStep
  rw [if_neg hne]
  rw [if_neg (by simp [hh])]
  by_cases hC : (¬ (hasPre twoSpaces l = true) ∨ out = [])
  · rw [if_pos hC]
    constructor
    · intro _
      rcases hC with h1 | h1
      · exact Or.inl (by simpa using h1)
      · exact Or.inr h1
    · intro _; rfl
  · rw [if_neg hC]
    constructor
    · intro h
      split at h
      · exact Except.noConfusion h
      · rename_i e he
        injection h with h2
        rw [h2] at he
        exact absurd he parseInstr_no_decode
    · intro hor
      exfalso
      apply hC
      rcases hor with h1 | h1
      · exact Or.inl (by simp [h1])
      · exact Or.inr h1

/-- Witness for C6's amended theorem: a one-space line with no open symbol is
rejected with the FormatError. -/
theorem nonheader_error_iff_witness :
    parseStep (([] : List disasmSym), ([] : AddrMap)) " x".toList =
      .error (.errorDecoding " x".toList) :=
  (nonheader_error_iff [] [] " x".toList (by decide) rfl).mpr (Or.inr rfl)

/-! ### The jump resolver (C7) -/

/-- Hexadecimal digit value. -/
def hexDigVal (c : Char) : Option Nat :=
  if 48 ≤ c.toNat ∧ c.toNat ≤ 57 then some (c.toNat - 48)
  else if 97 ≤ lowerChar c ∧ lowerChar c ≤ 102 then some (lowerChar c - 87)
  else none

/-- Accumulate hexadecimal digits. -/
def hexVal : Str → Nat → Nat
  | [], acc => acc
  | c :: cs, acc => hexVal cs (acc * 16 + (hexDigVal c).getD 0)

/-- The operand formats named by the claim's words — "parses as an integer
(decimal or 0x-prefixed hex)": a non-empty all-digit decimal numeral, or
`0x`/`0X` followed by non-empty hex digits.  This definition follows the
spec's words, for comparison against the code's `goParseInt`. -/
def specOperandValue (s : Str) : Option Int :=
  if s ≠ [] ∧ s.all isDigitChar then some (digitsVal s 0)
  else
    match s with
    | '0' :: c :: rest =>
      if (c = 'x' ∨ c = 'X') ∧ rest ≠ [] ∧ rest.all (fun d => (hexDigVal d).isSome) then
        some (hexVal rest 0)
      else none
    | _ => none

/-- An index containing the decimal reading of the operand `"0123"`. -/
def c7m : AddrMap := [(123, "f.go:9".toList)]

/-- A jump whose operand has a leading zero. -/
def c7c : disamLine := ⟨[], 0, 0, [], [], "JMP".toList, "0123".toList, []⟩

/-- Counterexample to C7 as stated: the operand `"0123"` parses as the
decimal integer 123, and 123 is present in the index with a non-empty
location — yet the resolver leaves `resolvedAlias` empty, because
`strconv.ParseInt(arg, 0, 0)` reads a leading zero as *octal* (value 83) and
83 is absent from the index. -/
theorem resolver_octal_cex :
    specOperandValue "0123".toList = some 123 ∧
      mapGet c7m 123 = "f.go:9".toList ∧ ("f.go:9".toList : Str) ≠ [] ∧
      resolveLine c7m c7c = some c7c ∧ c7c.«alias» = [] ∧
      goParseInt "0123".toList = some 83 := by
  refine ⟨rfl, rfl, by decide, rfl, rfl, rfl⟩

/-- C7 (amended).  For a `J`-mnemonic instruction with an empty alias, the
resolver sets `resolvedAlias` to the index entry exactly when the operand
parses under Go's `ParseInt(_, 0, 0)` convention (decimal *without leading
zero*, `0x`/`0X` hex, `0`/`0o` octal, `0b` binary, optional sign, underscore
separators) *and* the entry is present (non-empty); on a parse failure or a
missing entry the alias stays empty and no error is raised. -/
theorem resolver_alias_spec (m : AddrMap) (c c' : disamLine)
    (hJ : c.instr.head? = some 'J') (hal : c.«alias» = [])
    (h : resolveLine m c = some c') :
    (∀ n, goParseInt c.arg = some n → mapGet m n ≠ [] → c'.«alias» = mapGet m n) ∧
      (goParseInt c.arg = none → c'.«alias» = []) ∧
      (∀ n, goParseInt c.arg = some n → mapGet m n = [] → c'.«alias» = []) := by
  unfold resolveLine at h
  split at h
  · rename_i heq
    rw [heq] at hJ
    exact Option.noConfusion hJ
  · rename_i ch xs heq
    rw [heq] at hJ
    simp only [List.head?_cons, Option.some.injEq] at hJ
    rw [if_pos hJ] at h
    cases hb : goParseInt c.arg with
    | none =>
      rw [hb] at h
      injection h with h'
      subst h'
      exact ⟨fun n hn => Option.noConfusion hn, fun _ => hal,
             fun n hn => Option.noConfusion hn⟩
    | some b =>
      rw [hb] at h
      dsimp only at h
      by_cases hd : mapGet m b ≠ []
      · rw [if_pos hd] at h
        injection h with h'
        subst h'
        refine ⟨fun n hn _ => ?_, fun hn => Option.noConfusion hn,
                fun n hn hnil => ?_⟩
        · injection hn with hn'
          subst hn'
          rfl
        · injection hn with hn'
          subst hn'
          exact absurd hnil hd
      · rw [if_neg hd] at h
        injection h with h'
        subst h'
        push_neg at hd
        refine ⟨fun n hn hne => ?_, fun hn => Option.noConfusion hn, fun n hn _ => hal⟩
        injection hn with hn'
        subst hn'
        exact absurd hd hne

/-- The resolved form of a demo jump `JMP 0x10` against an index entry at
offset 16. -/
def c7resolved : disamLine :=
  ⟨[], 0, 0, [], [], "JMP".toList, "0x10".toList, "f.go:1".toList⟩

/-- Witness for C7's amended theorem: with offset 16 present, `JMP 0x10` gets
its alias set to the index entry. -/
theorem resolver_alias_spec_witness :
    c7resolved.«alias» = mapGet [((16 : Int), "f.go:1".toList)] 16 :=
  (resolver_alias_spec [((16 : Int), "f.go:1".toList)]
      ⟨[], 0, 0, [], [], "JMP".toList, "0x10".toList, []⟩ c7resolved
      rfl rfl rfl).1 16 rfl (by decide)

/-! ### The address index (C8) -/

/-- The claim's words — "the string formed from its sourceFile and
sourceLine": `file ++ ":" ++ decimal rendering of srcLine`.  Defined for comparison
with what the index actually stores (the raw text before the first tab). -/
def specFileLine (c : disamLine) : Str := c.file ++ ':' :: intToStr c.srcLine

/-- Listing whose instruction writes its source line with a leading zero. -/
def c8badLines : List Str :=
  ["TEXT a b".toList, "  x.go:07\t16\tcc\tRET".toList]

/-- The instruction parsed from `c8badLines`. -/
def c8badLine : disamLine :=
  ⟨"x.go".toList, 7, 16, "cc".toList, "RET".toList, "RET".toList, [], []⟩

/-- Counterexample to C8 as stated: the binary offsets are unique, yet the
index entry for the instruction's own offset is the raw text `"x.go:07"`, not
the string `"x.go:7"` formed from its sourceFile and sourceLine. -/
theorem index_raw_text_cex :
    parseLines c8badLines =
      .ok ([⟨"b".toList, "a".toList, [c8badLine]⟩], [(16, "x.go:07".toList)]) ∧
      mapGet [((16 : Int), "x.go:07".toList)] c8badLine.binOffset = "x.go:07".toList ∧
      specFileLine c8badLine = "x.go:7".toList ∧
      ("x.go:07".toList : Str) ≠ "x.go:7".toList := by
  exact ⟨rfl, rfl, rfl, by decide⟩

/-- C8 (amended).  If no two parsed instructions share a binary offset (the
spec's "expected unique" situation), then looking up an instruction's own
`binOffset` yields exactly the raw `file:line` text of its own listing line:
its `file` field, a colon, and the raw line-number text, which `Atoi`-parses
to its `srcLine`.  (When that text is canonical decimal this is the string
formed from the fields; `index_raw_text_cex` shows they can differ.) -/
theorem index_lookup_own_entry (ls : List Str) (out : List disasmSym)
    (m : AddrMap) (h : parseLines ls = .ok (out, m))
    (hpw : (allInstrs out).Pairwise (fun c c' => c.binOffset ≠ c'.binOffset)) :
    ∀ s ∈ out, ∀ c ∈ s.content,
      ∃ t, mapGet m c.binOffset = c.file ++ ':' :: t ∧ goAtoi t = some c.srcLine := by
  obtain ⟨L, hA, hM, hG⟩ := parse_trace ls [] [] out m h
  have hA' : allInstrs out = L.map (·.1) := by
    rw [hA]
    simp [allInstrs]
  have hM' : m = (L.map (fun p => (p.2.1, p.2.2))).reverse := by
    rw [hM]
    simp
  intro s hs c hc
  have hcmem : c ∈ allInstrs out :=
    List.mem_flatten.mpr ⟨s.content, List.mem_map_of_mem _ hs, hc⟩
  rw [hA'] at hcmem
  obtain ⟨p, hpL, hp1⟩ := List.mem_map.mp hcmem
  obtain ⟨hk, _, _, t, hfs, hat⟩ := hG p hpL
  -- pairwise distinct keys of the reversed entry list
  have hpwL : L.Pairwise (fun p q => p.1.binOffset ≠ q.1.binOffset) := by
    rw [hA'] at hpw
    exact (List.pairwise_map (f := fun x : disamLine × Int × Str => x.1)).mp hpw
  have hpwE : ((L.map (fun p => (p.2.1, p.2.2))).reverse.map Prod.fst).Pairwise
      (· ≠ ·) := by
    rw [List.pairwise_map, List.pairwise_reverse, List.pairwise_map]
    refine List.Pairwise.imp_of_mem ?_ hpwL
    intro a b ha hb hab
    dsimp only
    rw [(hG a ha).1, (hG b hb).1]
    exact fun hx => hab hx.symm
  have hmem : (c.binOffset, p.2.2) ∈ (L.map (fun p => (p.2.1, p.2.2))).reverse := by
    rw [List.mem_reverse]
    have hmm := List.mem_map_of_mem (fun p : disamLine × Int × Str => (p.2.1, p.2.2)) hpL
    dsimp only at hmm
    rw [hk, hp1] at hmm
    exact hmm
  have hfind := find_unique_key hmem hpwE
  refine ⟨t, ?_, ?_⟩
  · rw [hM']
    rw [mapGet_of_find hfind]
    rw [hfs, hp1]
  · rw [← hp1]
    exact hat

/-- Two-instruction demo listing with distinct offsets. -/
def c8okLines : List Str :=
  ["TEXT a b".toList, "  f.go:1\t16\tcc\tRET".toList,
   "  f.go:2\t17\tcc\tJMP 16".toList]

/-- First parsed instruction of `c8okLines`. -/
def c8okL1 : disamLine :=
  ⟨"f.go".toList, 1, 16, "cc".toList, "RET".toList, "RET".toList, [], []⟩

/-- Second parsed instruction of `c8okLines`. -/
def c8okL2 : disamLine :=
  ⟨"f.go".toList, 2, 17, "cc".toList, "JMP 16".toList, "JMP".toList,
   "16".toList, []⟩

/-- Parsed symbols of `c8okLines`. -/
def c8okOut : List disasmSym := [⟨"b".toList, "a".toList, [c8okL1, c8okL2]⟩]

/-- Address index of `c8okLines`. -/
def c8okM : AddrMap := [(17, "f.go:2".toList), (16, "f.go:1".toList)]

/-- Witness for C8's amended theorem: the first instruction's offset 16 looks
up to `"f.go" ++ ":" ++ t` with `Atoi t = 1`. -/
theorem index_lookup_own_entry_witness :
    ∃ t, mapGet c8okM c8okL1.binOffset = c8okL1.file ++ ':' :: t ∧
      goAtoi t = some c8okL1.srcLine :=
  index_lookup_own_entry c8okLines c8okOut c8okM rfl (by decide)
    ⟨"b".toList, "a".toList, [c8okL1, c8okL2]⟩ (by simp [c8okOut])
    c8okL1 (by simp)

/-! ### The resolver mutates only `alias` (C9) -/

theorem mapOpt_forall₂ {α β : Type} {f : α → Option β} :
    ∀ {l : List α} {l' : List β}, mapOpt f l = some l' →
      List.Forall₂ (fun a b => f a = some b) l l' := by
  intro l
  induction l with
  | nil =>
    intro l' h
    unfold mapOpt at h
    injection h with h'
    subst h'
    exact List.Forall₂.nil
  | cons a as ih =>
    intro l' h
    unfold mapOpt at h
    cases hfa : f a with
    | none => rw [hfa] at h; exact Option.noConfusion h
    | some b =>
      rw [hfa] at h
      cases hms : mapOpt f as with
      | none => rw [hms] at h; exact Option.noConfusion h
      | some bs =>
        rw [hms] at h
        injection h with h'
        subst h'
        exact List.Forall₂.cons hfa (ih hms)

/-- The per-instruction frame property: the resolver changes nothing but the
`alias` field, and leaves non-`J` instructions entirely unchanged. -/
theorem resolveLine_fields {m : AddrMap} {c c' : disamLine}
    (h : resolveLine m c = some c') :
    c'.file = c.file ∧ c'.srcLine = c.srcLine ∧ c'.binOffset = c.binOffset ∧
      c'.asm = c.asm ∧ c'.decoded = c.decoded ∧ c'.instr = c.instr ∧
      c'.arg = c.arg ∧ (c.instr.head? ≠ some 'J' → c' = c) := by
  unfold resolveLine at h
  split at h
  · exact Option.noConfusion h
  · rename_i ch xs heq
    split at h
    · rename_i hJ
      have hhead : c.instr.head? = some 'J' := by rw [heq, hJ]; rfl
      split at h
      · dsimp only at h
        split at h
        · injection h with h'
          subst h'
          exact ⟨rfl, rfl, rfl, rfl, rfl, rfl, rfl, fun hcon => absurd hhead hcon⟩
        · injection h with h'
          subst h'
          exact ⟨rfl, rfl, rfl, rfl, rfl, rfl, rfl, fun _ => rfl⟩
      · injection h with h'
        subst h'
        exact ⟨rfl, rfl, rfl, rfl, rfl, rfl, rfl, fun _ => rfl⟩
    · injection h with h'
      subst h'
      exact ⟨rfl, rfl, rfl, rfl, rfl, rfl, rfl, fun _ => rfl⟩

theorem resolveSym_parts {m : AddrMap} {s s' : disasmSym}
    (h : resolveSym m s = some s') :
    s'.file = s.file ∧ s'.symbol = s.symbol ∧
      mapOpt (resolveLine m) s.content = some s'.content := by
  unfold resolveSym at h
  split at h
  · exact Option.noConfusion h
  · rename_i cs hcs
    injection h with h'
    subst h'
    exact ⟨rfl, rfl, hcs⟩

/-- C9.  The resolve pass preserves the symbol list structure and, per
instruction, every field except `alias`; instructions whose mnemonic does not
begin with `J` come out exactly equal to their input. -/
theorem resolver_frame (m : AddrMap) (out out' : List disasmSym)
    (h : resolveAll m out = some out') :
    List.Forall₂ (fun s s' =>
      s'.file = s.file ∧ s'.symbol = s.symbol ∧
      List.Forall₂ (fun c c' =>
        c'.file = c.file ∧ c'.srcLine = c.srcLine ∧ c'.binOffset = c.binOffset ∧
        c'.asm = c.asm ∧ c'.decoded = c.decoded ∧ c'.instr = c.instr ∧
        c'.arg = c.arg ∧ (c.instr.head? ≠ some 'J' → c' = c))
        s.content s'.content) out out' := by
  have h2 := mapOpt_forall₂ h
  refine h2.imp ?_
  intro s s' hs
  obtain ⟨hf, hsym, hcont⟩ := resolveSym_parts hs
  refine ⟨hf, hsym, ?_⟩
  exact (mapOpt_forall₂ hcont).imp (fun c c' hc => resolveLine_fields hc)

/-- Demo symbol with a single non-jump instruction. -/
def c9sym : disasmSym :=
  [⟨"f.go".toList, 1, 16, "cc".toList, "MOVQ AX, BX".toList, "MOVQ".toList,
    "AX, BX".toList, []⟩] |> disasmSym.mk "f.go".toList "f.Sym".toList

/-- Witness for C9 at a concrete non-jump instruction: resolving is the
identity on it. -/
theorem resolver_frame_witness :
    List.Forall₂ (fun s s' =>
      s'.file = s.file ∧ s'.symbol = s.symbol ∧
      List.Forall₂ (fun c c' =>
        c'.file = c.file ∧ c'.srcLine = c.srcLine ∧ c'.binOffset = c.binOffset ∧
        c'.asm = c.asm ∧ c'.decoded = c.decoded ∧ c'.instr = c.instr ∧
        c'.arg = c.arg ∧ (c.instr.head? ≠ some 'J' → c' = c))
        s.content s'.content) [c9sym] [c9sym] :=
  resolver_frame [] [c9sym] [c9sym] rfl

/-! ### The blank separator line (C10) -/

theorem natToStrAux_ne_nil (fuel n : Nat) : natToStrAux (fuel + 1) n ≠ [] := by
  unfold natToStrAux
  split
  · exact List.cons_ne_nil _ _
  · intro hcon
    rcases List.append_eq_nil.mp hcon with ⟨_, h2⟩
    exact List.cons_ne_nil _ _ h2

theorem intToStr_ne_nil (i : Int) : intToStr i ≠ [] := by
  unfold intToStr
  split
  · exact List.cons_ne_nil _ _
  · exact natToStrAux_ne_nil _ _

/-- C10.  Rendering one instruction emits exactly one blank output line — and
that line comes last — precisely when the decoded text starts with `"JMP "`,
`"RET "` or `"UD2 "` (trailing space included, which is what `sepTrigger`
tests); otherwise no blank line is emitted.  In particular `decodedText =
"RET"` emits none and `"RET 0x10"` emits one. -/
theorem separator_iff_trailing_space (srcLines : List Str) (lastLine : Int)
    (c : disamLine) (outLines : List Str) (last' : Int)
    (h : renderInstr srcLines lastLine c = some (outLines, last')) :
    outLines.count ([] : Str) = (if sepTrigger c then 1 else 0) ∧
      (outLines.getLast? = some [] ↔ sepTrigger c = true) := by
  simp only [renderInstr] at h
  split at h
  · exact Option.noConfusion h
  · rename_i hd last0 hhead
    have hhd : hd = [] ∨ ∃ hl : Str, hd = [hl] ∧ hl ≠ [] := by
      split at hhead
      · split at hhead
        · exact Option.noConfusion hhead
        · rename_i src hsrc
          injection hhead with hh
          refine Or.inr ⟨intToStr c.srcLine ++ [' ', ' '] ++ yellowHB ++
            shorten src ++ ansiReset, ?_, ?_⟩
          · have := congrArg Prod.fst hh
            simpa using this.symm
          · intro hcon
            refine intToStr_ne_nil c.srcLine ?_
            rcases List.append_eq_nil.mp
              (List.append_eq_nil.mp
                (List.append_eq_nil.mp (List.append_eq_nil.mp hcon).1).1).1 with ⟨ha, _⟩
            exact ha
      · injection hhead with hh
        exact Or.inl (by
          have := congrArg Prod.fst hh
          simpa using this.symm)
    injection h with h'
    have houtl := congrArg Prod.fst h'
    dsimp only at houtl
    -- name the main line and the separator
    set mainLine := (if c.«alias» ≠ [] then
        ' ' :: ' ' :: (renderColor c ++ padRight5 c.instr ++ ' ' :: c.«alias» ++ ansiReset)
      else if c.arg ≠ [] then
        ' ' :: ' ' :: (renderColor c ++ padRight5 c.instr ++ ' ' :: c.arg ++ ansiReset)
      else ' ' :: ' ' :: (renderColor c ++ c.instr ++ ansiReset)) with hmldef
    have hmne : mainLine ≠ [] := by
      rw [hmldef]
      split
      · exact List.cons_ne_nil _ _
      · split
        · exact List.cons_ne_nil _ _
        · exact List.cons_ne_nil _ _
    have hout : outLines = hd ++ [mainLine] ++
        (if sepTrigger c then [([] : Str)] else []) := houtl.symm
    have hcount0 : hd.count ([] : Str) = 0 := by
      rcases hhd with h0 | ⟨hl, h0, hlne⟩
      · rw [h0]; rfl
      · rw [h0, List.count_singleton]
        simp only [beq_iff_eq]
        rw [if_neg hlne]
    have hcountm : ([mainLine] : List Str).count [] = 0 := by
      rw [List.count_singleton]
      simp only [beq_iff_eq]
      rw [if_neg hmne]
    by_cases hst : sepTrigger c = true
    · rw [if_pos hst] at hout
      rw [if_pos hst]
      refine ⟨?_, ?_⟩
      · rw [hout, List.count_append, List.count_append, hcount0, hcountm]
        simp
      · rw [hout, List.getLast?_concat]
        simp [hst]
    · rw [if_neg hst] at hout
      rw [if_neg hst]
      refine ⟨?_, ?_⟩
      · rw [hout, List.append_nil, List.count_append, hcount0, hcountm]
      · rw [hout]
        simp only [List.append_nil]
        rw [List.getLast?_concat]
        constructor
        · intro hcon
          injection hcon with hc2
          exact absurd hc2 hmne
        · intro hcon
          exact absurd hcon hst

/-- A demo source file with one line. -/
def c10src : List Str := ["ret here".toList]

/-- A `RET 0x10` instruction (decoded text has the trailing-space form). -/
def c10c : disamLine :=
  ⟨"f.go".toList, 1, 16, "cc".toList, "RET 0x10".toList, "RET".toList,
   "0x10".toList, []⟩

/-- The three rendered lines for `c10c`: source header, instruction, blank
separator. -/
def c10out : List Str :=
  ["1  \x1b[1;93mret here\x1b[0m".toList,
   "  \x1b[92mRET   0x10\x1b[0m".toList, []]

/-- Witness for C10: rendering `RET 0x10` emits exactly one blank line. -/
theorem separator_iff_trailing_space_witness : c10out.count ([] : Str) = 1 := by
  have h := separator_iff_trailing_space c10src 0 c10c c10out 1 rfl
  simpa using h.1

end Disfunc
